import Mathlib

set_option autoImplicit false

namespace AstroPandas

/-!
Shallow embedding of `src/astropandas/dataframe.py`.

A numpy dtype is modelled by its byte-order character (`<`, `>`, or `|` for
types where byte order is not applicable), its kind character and its item
size in bytes.  A numpy array column is a dtype together with, per row, the
raw bytes of one element.  The host byte order (`sys.byteorder`) is either
`little` or `big`.
-/

/-- Byte-order character of a numpy dtype string: `<` (little), `>` (big) or
`|` (not applicable, used for single-byte and raw-byte kinds). -/
inductive ByteOrder where
  | little
  | big
  | notApplicable
  deriving DecidableEq

/-- Kind character of a numpy dtype: signed integer `i`, unsigned integer `u`,
float `f`, boolean `b`, fixed-width byte string `S`, complex `c`. -/
inductive Kind where
  | int
  | uint
  | float
  | bool
  | bytes
  | complex
  deriving DecidableEq

/-- A numpy dtype: byte order, kind and item size in bytes. -/
structure DType where
  order : ByteOrder
  kind : Kind
  itemsize : Nat
  deriving DecidableEq

/-- The host machine byte order, `sys.byteorder` in the source. -/
inductive Host where
  | little
  | big
  deriving DecidableEq

def Host.toByteOrder : Host → ByteOrder
  | Host.little => ByteOrder.little
  | Host.big => ByteOrder.big

/-- A numpy array column: its dtype and, per row, the raw bytes of one
element (each byte a natural number below 256). -/
structure Column where
  dtype : DType
  elems : List (List Nat)
  deriving DecidableEq

/-- Little-endian natural-number value of a byte sequence. -/
def natOfBytesLE : List Nat → Nat
  | [] => 0
  | b :: rest => b + 256 * natOfBytesLE rest

/-- The numeric value encoded by one element's bytes when read under the
given byte order.  For `notApplicable` the element is a single byte (or raw
bytes) and the little-endian reading is used as the canonical value. -/
def elemValue (order : ByteOrder) (bytes : List Nat) : Nat :=
  match order with
  | ByteOrder.big => natOfBytesLE bytes.reverse
  | _ => natOfBytesLE bytes

/-- The sequence of element values stored in a column. -/
def colValues (c : Column) : List Nat :=
  c.elems.map (elemValue c.dtype.order)

/-- numpy byte-order conversion of the bytes of one element.  Scalar numeric
and byte-string items are one swap unit, so the item bytes are reversed;
a complex item swaps its two floating-point components independently. -/
def swapElem (d : DType) (bytes : List Nat) : List Nat :=
  match d.kind with
  | Kind.complex =>
      (bytes.take (d.itemsize / 2)).reverse ++ (bytes.drop (d.itemsize / 2)).reverse
  | _ => bytes.reverse

/-- The numpy `TypeError` raised by `ndarray.astype` when the requested cast
is not allowed by the casting rule. -/
inductive ConvertError where
  | typeMismatch
  deriving DecidableEq

/-- Model of `ndarray.astype(dtype, casting="equiv", copy=False)` as used on
line 25 of the source.  With `copy=False` and the same dtype the input array
itself is returned; the boolean flag records whether the result shares the
input's backing storage.  Casting `equiv` permits only byte-order changes:
the kind and the item size must agree, and the data is re-encoded so that
every element keeps its value under the new byte order.  (When the branch
building a fresh array is taken the two dtypes differ in their order field
only, so the re-encoding is exactly the byte swap.)  Any other cast raises
`TypeError`. -/
def astype (data : Column) (d : DType) : Except ConvertError (Column × Bool) :=
  if data.dtype = d then
    Except.ok (data, true)
  else if data.dtype.kind = d.kind ∧ data.dtype.itemsize = d.itemsize then
    Except.ok
      ({ dtype := d, elems := data.elems.map (swapElem data.dtype) }, false)
  else
    Except.error ConvertError.typeMismatch

/-- Embedding of `_convert_byteorder` (src/astropandas/dataframe.py, lines
15-25).  If the dtype string starts with `<` or `>` (i.e. the byte order is
applicable), the target dtype is rebuilt with the host's order character and
the same kind and item size (`np.dtype("<" + dtype.base.str.strip("><"))`);
otherwise the dtype is left unchanged.  The data is then cast with
`astype(dtype, casting="equiv", copy=False)`. -/
def _convert_byteorder (host : Host) (data : Column) : Except ConvertError (Column × Bool) :=
  let dtype := data.dtype
  let dtype1 :=
    if dtype.order ≠ ByteOrder.notApplicable then
      match host with
      | Host.little => { dtype with order := ByteOrder.little }
      | Host.big => { dtype with order := ByteOrder.big }
    else dtype
  astype data dtype1

/-- Rebuilding a dtype with its own order is the identity. -/
theorem dtype_set_order_self (d : DType) (o : ByteOrder) (h : d.order = o) :
    { d with order := o } = d := by
  cases d
  simp_all

/-- Characterization of `_convert_byteorder`: it never raises, returns the
input itself (shared storage) when the order is not applicable or already
native, and otherwise returns a fresh byte-swapped column tagged with the
host's order. -/
theorem convert_byteorder_spec (host : Host) (data : Column) :
    _convert_byteorder host data =
      if data.dtype.order = ByteOrder.notApplicable ∨ data.dtype.order = host.toByteOrder
      then Except.ok (data, true)
      else Except.ok
        ({ dtype := { data.dtype with order := host.toByteOrder },
           elems := data.elems.map (swapElem data.dtype) }, false) := by
  unfold _convert_byteorder astype
  cases host <;> cases hord : data.dtype.order <;>
    simp [Host.toByteOrder, hord, dtype_set_order_self data.dtype _ hord] <;>
  · intro h
    exact absurd (congrArg DType.order h) (by simp [hord])

/-!
The FITS codec (fitsio branch of the source).  A FITS file is a list of
HDUs; a binary-table HDU carries a structured array: named columns in their
declared field order.
-/

/-- A structured array / Record batch: named columns in field order. -/
abbrev HduData := List (String × Column)

/-- One HDU of a FITS file: either an image HDU (in particular the empty
primary HDU that `fits.write` creates in a fresh file) or a binary table. -/
inductive HDU where
  | image
  | table (data : HduData)
  deriving DecidableEq

/-- A FITS file: its HDUs in order, indexed from 0. -/
abbrev FitsFile := List HDU

/-- The errors a `read_fits` call can signal. -/
inductive ReadError where
  | indexError (hdu : Nat)
  | notTable (hdu : Nat)
  | schemaError (missing : String)
  | convert (e : ConvertError)
  deriving DecidableEq

/-- First column of the given name in a structured array, if any. -/
def findCol (data : HduData) (name : String) : Option Column :=
  match data with
  | [] => none
  | (n, c) :: rest => if n = name then some c else findCol rest name

/-- Model of fitsio's `_extract_colnum`: the position of a requested column
name in the extension's schema; `none` when the name is absent (fitsio then
raises an error naming the column). -/
def colIndex (data : HduData) (nm : String) : Option Nat :=
  match data with
  | [] => none
  | (n, _) :: rest => if n = nm then some 0 else (colIndex rest nm).map (· + 1)

/-- The name-resolution loop of fitsio's `_extract_colnums`: each requested
name is resolved, in request order, to its column number; the first missing
name aborts the read with an error naming it. -/
def extractColnums (data : HduData) : List String → Except ReadError (List Nat)
  | [] => Except.ok []
  | nm :: rest =>
    match colIndex data nm with
    | none => Except.error (ReadError.schemaError nm)
    | some i => (extractColnums data rest).map (fun r => i :: r)

/-- Model of `numpy.unique` as applied by `_extract_colnums` to the resolved
column numbers, which are all below the column count `m`: numpy.unique
returns the sorted list of the distinct values, which for such input is
exactly the increasing enumeration of the numbers below `m` that occur in
the list. -/
def uniqueBelow (m : Nat) (l : List Nat) : List Nat :=
  (List.range m).filter (fun i => decide (i ∈ l))

/-- Model of the fitsio column-subset read `fits[hdu][cols][:]` (line 51):
the requested names are resolved to column numbers and reduced by
numpy.unique to unique, sorted numbers (`_extract_colnums`), and the
columns at those numbers are then read in that order.  The resulting
structured array therefore holds the distinct requested columns in file
order, deduplicated, regardless of request order.  A missing name raises an
error naming it. -/
def subsetCols (data : HduData) (cs : List String) : Except ReadError HduData :=
  match extractColnums data cs with
  | Except.error e => Except.error e
  | Except.ok nums =>
    Except.ok ((uniqueBelow data.length nums).filterMap (fun i => data.get? i))

/-- The in-memory tabular structure handed to the caller, a
`pandas.DataFrame`: an ordered mapping from column name to column. -/
structure Table where
  cols : List (String × Column)
  deriving DecidableEq

def Table.names (t : Table) : List String := t.cols.map Prod.fst

/-- Row count of a data frame built from equal-length columns (`len(df)`). -/
def Table.rowCount (t : Table) : Nat :=
  match t.cols with
  | [] => 0
  | (_, c) :: _ => c.elems.length

/-- The dict comprehension on lines 60-62: every field of the structured
array, in field order, is passed through `_convert_byteorder` and inserted
under its name. -/
def convertCols (host : Host) : HduData → Except ConvertError (List (String × Column))
  | [] => Except.ok []
  | (n, c) :: rest =>
    match _convert_byteorder host c with
    | Except.error e => Except.error e
    | Except.ok (c1, _) =>
      (convertCols host rest).map (fun r => (n, c1) :: r)

/-- Embedding of `read_fits` (src/astropandas/dataframe.py, lines 28-63),
fitsio branch: open the file, select the extension (an absent index raises),
read all columns or the requested subset, close the handle, then build the
data frame by normalizing the byte order of every field in order. -/
def read_fits (host : Host) (file : FitsFile) (cols : Option (List String))
    (hdu : Nat) : Except ReadError Table :=
  match file.get? hdu with
  | none => Except.error (ReadError.indexError hdu)
  | some HDU.image => Except.error (ReadError.notTable hdu)
  | some (HDU.table tbl) =>
    let dataE := match cols with
      | none => Except.ok tbl
      | some cs => subsetCols tbl cs
    match dataE with
    | Except.error e => Except.error e
    | Except.ok data =>
      match convertCols host data with
      | Except.error e => Except.error (ReadError.convert e)
      | Except.ok cs => Except.ok ⟨cs⟩

/-- Events on the underlying file handle during one `read_fits` call. -/
inductive FitsEvent where
  | opened
  | closed
  deriving DecidableEq

/-- The file-handle events of one `read_fits` call, fitsio branch:
`fitsio.FITS(fpath)` on line 47 opens the handle, and `fits.close()` on
line 52 runs only if the extension lookup and the column reads on lines
48-51 returned normally.  The statements are not wrapped in try/finally or
a with-block, so an exception raised on lines 48-51 propagates to the
caller without the close having been executed.  (The byte-order conversion
on lines 60-62 runs after the close, so its errors do not affect the
handle.) -/
def read_fits_events (file : FitsFile) (cols : Option (List String))
    (hdu : Nat) : List FitsEvent :=
  match file.get? hdu with
  | none => [FitsEvent.opened]
  | some HDU.image => [FitsEvent.opened]
  | some (HDU.table tbl) =>
    match cols with
    | none => [FitsEvent.opened, FitsEvent.closed]
    | some cs =>
      match subsetCols tbl cs with
      | Except.error _ => [FitsEvent.opened]
      | Except.ok _ => [FitsEvent.opened, FitsEvent.closed]

/-!
The write path (`to_fits`, lines 66-90, fitsio branch).
-/

/-- The structured dtype built on line 79 from `df.dtypes.items()`: one
field per column, in column order. -/
def Table.schema (t : Table) : List (String × DType) :=
  t.cols.map (fun p => (p.1, p.2.dtype))

/-- Model of `np.empty(len(df), dtype)` (line 80) for a structured dtype:
one column per field with the field's dtype; the element bytes are
uninitialized, modelled as zeros. -/
def np_empty (n : Nat) (schema : List (String × DType)) : HduData :=
  schema.map (fun p => (p.1, ⟨p.2, List.replicate n (List.replicate p.2.itemsize 0)⟩))

/-- Model of the statement `array[column] = df[column]` (line 82): the
field of that name in the structured array receives the column's data.  The
field's dtype was built from `df.dtypes`, so it equals the column's dtype
and the assignment copies the bytes unchanged. -/
def setColumn (arr : HduData) (name : String) (elems : List (List Nat)) : HduData :=
  arr.map (fun p => if p.1 = name then (p.1, { p.2 with elems := elems }) else p)

/-- The data of the data-frame column of the given name (`df[column]`). -/
def dfElems (df : Table) (name : String) : List (List Nat) :=
  match findCol df.cols name with
  | none => []
  | some c => c.elems

/-- The mutable state during `to_fits`: the caller's data frame and the
record array under construction. -/
structure WriteState where
  df : Table
  array : HduData
  deriving DecidableEq

/-- The loop `for column in df.columns: array[column] = df[column]` (lines
81-82), with the state passed explicitly: each iteration reads a column of
`df` and writes it into `array`. -/
def writeLoop : WriteState → List String → WriteState
  | s, [] => s
  | s, c :: rest => writeLoop ⟨s.df, setColumn s.array c (dfElems s.df c)⟩ rest

/-- The state after running lines 79-82 of `to_fits`: allocate the record
array for `len(df)` rows with the dtype derived from `df.dtypes`, then copy
every column of `df` into it. -/
def to_fits_run (df : Table) : WriteState :=
  writeLoop ⟨df, np_empty df.rowCount df.schema⟩ df.names

/-- What fitsio does to one column when serializing it into a FITS binary
table: FITS data are big-endian on disk, so a little-endian column is
byte-swapped and tagged big-endian, while a big-endian or order-free column
is stored as is.  Reading the extension back yields the columns exactly as
stored. -/
def storeColumn (c : Column) : Column :=
  if c.dtype.order = ByteOrder.notApplicable then c
  else if c.dtype.order = ByteOrder.little then
    { dtype := { c.dtype with order := ByteOrder.big },
      elems := c.elems.map (swapElem c.dtype) }
  else c

/-- Embedding of `to_fits` (lines 66-90), fitsio branch, on a fresh
destination path: build the record array from the data frame (lines 79-82)
and hand it to `fits.write` (lines 83-84), which creates a FITS file whose
HDU 0 is an empty primary HDU and whose HDU 1 is the binary-table
extension holding the array. -/
def to_fits (df : Table) : FitsFile :=
  [HDU.image,
   HDU.table ((to_fits_run df).array.map (fun p => (p.1, storeColumn p.2)))]

/-!
Predicates used by the theorems.
-/

/-- A dtype is in native byte order for the host when its order character is
the host's, or when byte order is not applicable to it. -/
def NativeOrder (host : Host) (d : DType) : Prop :=
  d.order = host.toByteOrder ∨ d.order = ByteOrder.notApplicable

instance (host : Host) (d : DType) : Decidable (NativeOrder host d) := by
  unfold NativeOrder
  infer_instance

/-- The FITS-supported primitive dtypes named by the spec: 8/16/32/64-bit
signed and unsigned integers, 32/64-bit floats, booleans, fixed-width byte
strings.  numpy canonicalizes the order character of one-byte and raw-byte
dtypes to `|`. -/
def SupportedDType (d : DType) : Prop :=
  ((d.kind = Kind.int ∨ d.kind = Kind.uint) ∧ d.itemsize ∈ [1, 2, 4, 8] ∧
    (d.itemsize = 1 → d.order = ByteOrder.notApplicable)) ∨
  (d.kind = Kind.float ∧ d.itemsize ∈ [4, 8]) ∨
  (d.kind = Kind.bool ∧ d.itemsize = 1 ∧ d.order = ByteOrder.notApplicable) ∨
  (d.kind = Kind.bytes ∧ d.order = ByteOrder.notApplicable)

instance (d : DType) : Decidable (SupportedDType d) := by
  unfold SupportedDType
  infer_instance

theorem supported_not_complex {d : DType} (h : SupportedDType d) :
    d.kind ≠ Kind.complex := by
  intro hc
  unfold SupportedDType at h
  rw [hc] at h
  simp at h

/-!
Helper lemmas.
-/

theorem swapElem_eq_reverse (d : DType) (hk : d.kind ≠ Kind.complex)
    (l : List Nat) : swapElem d l = l.reverse := by
  obtain ⟨o, k, n⟩ := d
  cases k
  case complex => exact absurd rfl hk
  all_goals rfl

theorem elemValue_big_reverse (l : List Nat) :
    elemValue ByteOrder.big l.reverse = elemValue ByteOrder.little l := by
  simp [elemValue]

theorem elemValue_little_reverse (l : List Nat) :
    elemValue ByteOrder.little l.reverse = elemValue ByteOrder.big l := rfl

/-- Writing a column to FITS and normalizing the byte order of what is read
back yields a column with the same kind, item size, row count and values;
when the column was already in native byte order it is recovered exactly. -/
theorem convert_storeColumn (host : Host) (c : Column)
    (hk : c.dtype.kind ≠ Kind.complex) :
    ∃ b c1, _convert_byteorder host (storeColumn c) = Except.ok (c1, b) ∧
      c1.dtype.kind = c.dtype.kind ∧ c1.dtype.itemsize = c.dtype.itemsize ∧
      c1.elems.length = c.elems.length ∧ colValues c1 = colValues c ∧
      (NativeOrder host c.dtype → c1 = c) := by
  obtain ⟨⟨o, k, n⟩, e⟩ := c
  have hsw : ∀ (o' : ByteOrder) (l : List Nat),
      swapElem ⟨o', k, n⟩ l = l.reverse :=
    fun o' l => swapElem_eq_reverse ⟨o', k, n⟩ hk l
  cases host <;> cases o
  -- host little, column little: stored big-endian, read back swapped to the
  -- original little-endian column
  case little.little =>
    refine ⟨false, ⟨⟨ByteOrder.little, k, n⟩, e⟩, ?_, rfl, rfl, rfl, rfl,
      fun _ => rfl⟩
    simp [storeColumn, convert_byteorder_spec, Host.toByteOrder, hsw,
      List.map_map, Function.comp_def]
  -- host little, column big: stored as is, read back as a little-endian
  -- column with the same values
  case little.big =>
    refine ⟨false, ⟨⟨ByteOrder.little, k, n⟩,
      e.map (swapElem ⟨ByteOrder.big, k, n⟩)⟩, ?_, rfl, rfl, by simp, ?_, ?_⟩
    · simp [storeColumn, convert_byteorder_spec, Host.toByteOrder]
    · simp [colValues, List.map_map, Function.comp_def, hsw, elemValue]
    · intro hnat
      rcases hnat with h | h <;> simp [Host.toByteOrder] at h
  -- host little, byte order not applicable: untouched
  case little.notApplicable =>
    refine ⟨true, ⟨⟨ByteOrder.notApplicable, k, n⟩, e⟩, ?_, rfl, rfl, rfl, rfl,
      fun _ => rfl⟩
    simp [storeColumn, convert_byteorder_spec]
  -- host big, column little: stored big-endian (byte-swapped), read back
  -- as is: a big-endian column with the same values
  case big.little =>
    refine ⟨true, ⟨⟨ByteOrder.big, k, n⟩,
      e.map (swapElem ⟨ByteOrder.little, k, n⟩)⟩, ?_, rfl, rfl, by simp, ?_, ?_⟩
    · simp [storeColumn, convert_byteorder_spec, Host.toByteOrder]
    · simp [colValues, List.map_map, Function.comp_def, hsw, elemValue]
    · intro hnat
      rcases hnat with h | h <;> simp [Host.toByteOrder] at h
  -- host big, column big: untouched
  case big.big =>
    refine ⟨true, ⟨⟨ByteOrder.big, k, n⟩, e⟩, ?_, rfl, rfl, rfl, rfl,
      fun _ => rfl⟩
    simp [storeColumn, convert_byteorder_spec, Host.toByteOrder]
  -- host big, byte order not applicable: untouched
  case big.notApplicable =>
    refine ⟨true, ⟨⟨ByteOrder.notApplicable, k, n⟩, e⟩, ?_, rfl, rfl, rfl, rfl,
      fun _ => rfl⟩
    simp [storeColumn, convert_byteorder_spec]

/-!
Lemmas about the read path.
-/

theorem findCol_mem (l : HduData) (nm : String) (c : Column)
    (h : findCol l nm = some c) : (nm, c) ∈ l := by
  induction l with
  | nil => cases h
  | cons p rest ih =>
    obtain ⟨pn, pc⟩ := p
    by_cases hn : pn = nm
    · rw [findCol, if_pos hn] at h
      cases h
      subst hn
      exact List.mem_cons_self _ _
    · rw [findCol, if_neg hn] at h
      exact List.mem_cons_of_mem _ (ih h)

theorem findCol_self (l : HduData) (nm : String) (c : Column)
    (hnd : (l.map Prod.fst).Nodup) (hmem : (nm, c) ∈ l) :
    findCol l nm = some c := by
  induction l with
  | nil => cases hmem
  | cons p rest ih =>
    obtain ⟨pn, pc⟩ := p
    rw [List.map_cons, List.nodup_cons] at hnd
    rcases List.mem_cons.mp hmem with h | h
    · cases h
      rw [findCol, if_pos rfl]
    · have hne : pn ≠ nm := by
        intro he
        exact hnd.1 (he ▸ List.mem_map.mpr ⟨(nm, c), h, rfl⟩)
      rw [findCol, if_neg hne]
      exact ih hnd.2 h

theorem colIndex_some (data : HduData) (nm : String) (i : Nat)
    (h : colIndex data nm = some i) :
    i < data.length ∧ ∃ c, data.get? i = some (nm, c) := by
  induction data generalizing i with
  | nil => cases h
  | cons p rest ih =>
    obtain ⟨pn, pc⟩ := p
    by_cases hn : pn = nm
    · rw [colIndex, if_pos hn] at h
      cases h
      subst hn
      exact ⟨Nat.succ_pos _, pc, rfl⟩
    · rw [colIndex, if_neg hn] at h
      cases hj : colIndex rest nm with
      | none => rw [hj] at h; cases h
      | some j =>
        rw [hj] at h
        cases h
        obtain ⟨hlt, c, hc⟩ := ih j hj
        exact ⟨Nat.succ_lt_succ hlt, c, hc⟩

theorem colIndex_of_get? (data : HduData) (nm : String) (c : Column) (i : Nat)
    (hnd : (data.map Prod.fst).Nodup)
    (h : data.get? i = some (nm, c)) :
    colIndex data nm = some i := by
  induction data generalizing i with
  | nil => cases h
  | cons p rest ih =>
    obtain ⟨pn, pc⟩ := p
    rw [List.map_cons, List.nodup_cons] at hnd
    cases i with
    | zero =>
      cases h
      rw [colIndex, if_pos rfl]
    | succ j =>
      have hj : rest.get? j = some (nm, c) := h
      have hne : pn ≠ nm := by
        intro he
        exact hnd.1 (he ▸ List.mem_map.mpr ⟨(nm, c), List.get?_mem hj, rfl⟩)
      rw [colIndex, if_neg hne, ih j hnd.2 hj]
      rfl

theorem extractColnums_ok (data : HduData) (cs : List String) (nums : List Nat)
    (h : extractColnums data cs = Except.ok nums) :
    (∀ nm ∈ cs, ∃ i, i ∈ nums ∧ colIndex data nm = some i) ∧
    (∀ i ∈ nums, ∃ nm, nm ∈ cs ∧ colIndex data nm = some i) := by
  induction cs generalizing nums with
  | nil =>
    cases h
    exact ⟨fun nm hnm => absurd hnm (List.not_mem_nil nm),
           fun i hi => absurd hi (List.not_mem_nil i)⟩
  | cons nm0 rest ih =>
    rw [extractColnums] at h
    cases hci : colIndex data nm0 with
    | none => rw [hci] at h; cases h
    | some i0 =>
      rw [hci] at h
      cases hrest : extractColnums data rest with
      | error e => rw [hrest] at h; cases h
      | ok r =>
        rw [hrest] at h
        cases h
        obtain ⟨h1, h2⟩ := ih r hrest
        constructor
        · intro nm hnm
          rcases List.mem_cons.mp hnm with he | he
          · subst he
            exact ⟨i0, List.mem_cons_self _ _, hci⟩
          · obtain ⟨i, hi, hcol⟩ := h1 nm he
            exact ⟨i, List.mem_cons_of_mem _ hi, hcol⟩
        · intro i hi
          rcases List.mem_cons.mp hi with he | he
          · subst he
            exact ⟨nm0, List.mem_cons_self _ _, hci⟩
          · obtain ⟨nm, hnm, hcol⟩ := h2 i he
            exact ⟨nm, List.mem_cons_of_mem _ hnm, hcol⟩

/-- A missing requested column makes the name resolution fail with an error
naming the first missing column, in request order. -/
theorem extractColnums_missing (data : HduData) (cs : List String)
    (hmiss : ∃ nm ∈ cs, colIndex data nm = none) :
    ∃ nm, nm ∈ cs ∧ colIndex data nm = none ∧
      extractColnums data cs = Except.error (ReadError.schemaError nm) := by
  induction cs with
  | nil =>
    obtain ⟨nm, hn, _⟩ := hmiss
    cases hn
  | cons c rest ih =>
    cases hci : colIndex data c with
    | none =>
      exact ⟨c, List.mem_cons_self _ _, hci, by rw [extractColnums, hci]⟩
    | some i =>
      obtain ⟨nm, hn, hnone⟩ := hmiss
      have hn' : nm ∈ rest := by
        rcases List.mem_cons.mp hn with h1 | h1
        · subst h1
          rw [hci] at hnone
          cases hnone
        · exact h1
      obtain ⟨m, hm, hmn, hext⟩ := ih ⟨nm, hn', hnone⟩
      refine ⟨m, List.mem_cons_of_mem _ hm, hmn, ?_⟩
      rw [extractColnums, hci, hext]
      rfl

theorem findCol_none_iff (data : HduData) (nm : String) :
    findCol data nm = none ↔ colIndex data nm = none := by
  induction data with
  | nil => simp [findCol, colIndex]
  | cons p rest ih =>
    obtain ⟨pn, pc⟩ := p
    by_cases h : pn = nm
    · simp [findCol, colIndex, h]
    · simp [findCol, colIndex, h, ih, Option.map_eq_none']

/-- Evaluation helper for the index selection in `subsetCols`: scanning the
columns in file order and keeping those whose index satisfies the
predicate. -/
def selGo : HduData → (Nat → Bool) → HduData
  | [], _ => []
  | p :: rest, q =>
    if q 0 then p :: selGo rest (fun j => q (j + 1))
    else selGo rest (fun j => q (j + 1))

theorem selGo_spec (data : HduData) (q : Nat → Bool) :
    ((List.range data.length).filter q).filterMap (fun i => data.get? i) =
      selGo data q := by
  induction data generalizing q with
  | nil => rfl
  | cons p rest ih =>
    have hmap : ((List.map Nat.succ (List.range rest.length)).filter q).filterMap
        (fun i => (p :: rest).get? i) =
        ((List.range rest.length).filter (fun j => q (j + 1))).filterMap
          (fun i => rest.get? i) := by
      rw [List.filter_map, List.filterMap_map]
      rfl
    rw [List.length_cons, List.range_succ_eq_map, List.filter_cons]
    by_cases hq : q 0
    · rw [if_pos (by simpa using hq), List.filterMap_cons]
      simp only [List.get?]
      rw [hmap, ih]
      simp [selGo, hq]
    · rw [if_neg (by simpa using hq)]
      rw [hmap, ih]
      simp [selGo, hq]

theorem selGo_eq_filter (data : HduData) (cs : List String) (q : Nat → Bool)
    (hq : ∀ j p, data.get? j = some p →
      q j = decide ((p : String × Column).1 ∈ cs)) :
    selGo data q = data.filter (fun p => decide (p.1 ∈ cs)) := by
  induction data generalizing q with
  | nil => rfl
  | cons p rest ih =>
    have h0 : q 0 = decide (p.1 ∈ cs) := hq 0 p rfl
    have hrest : ∀ j p', rest.get? j = some p' →
        q (j + 1) = decide ((p' : String × Column).1 ∈ cs) :=
      fun j p' hj => hq (j + 1) p' hj
    by_cases hmem : p.1 ∈ cs
    · simp [selGo, List.filter_cons, h0, hmem, ih _ hrest]
    · simp [selGo, List.filter_cons, h0, hmem, ih _ hrest]

/-- A successful subset read returns every requested column (none is
dropped), and every returned column is one of the extension's columns. -/
theorem subsetCols_mem_names (data : HduData) (cs : List String) (res : HduData)
    (h : subsetCols data cs = Except.ok res) :
    (∀ nm ∈ cs, nm ∈ res.map Prod.fst) ∧ (∀ p ∈ res, p ∈ data) := by
  unfold subsetCols at h
  cases hext : extractColnums data cs with
  | error e => rw [hext] at h; cases h
  | ok nums =>
    rw [hext] at h
    cases h
    obtain ⟨h1, _⟩ := extractColnums_ok data cs nums hext
    constructor
    · intro nm hnm
      obtain ⟨i, hi, hcol⟩ := h1 nm hnm
      obtain ⟨hlt, c, hc⟩ := colIndex_some data nm i hcol
      have hmemf : i ∈ uniqueBelow data.length nums := by
        rw [uniqueBelow, List.mem_filter]
        exact ⟨List.mem_range.mpr hlt, by simpa using hi⟩
      have hres : (nm, c) ∈
          (uniqueBelow data.length nums).filterMap (fun i => data.get? i) :=
        List.mem_filterMap.mpr ⟨i, hmemf, hc⟩
      exact List.mem_map.mpr ⟨(nm, c), hres, rfl⟩
    · intro p hp
      obtain ⟨i, _, hip⟩ := List.mem_filterMap.mp hp
      exact List.get?_mem hip

/-- Over an extension with unique column names, a successful subset read
returns exactly the distinct requested columns, in file order. -/
theorem subsetCols_filter (data : HduData) (cs : List String) (res : HduData)
    (hnd : (data.map Prod.fst).Nodup)
    (h : subsetCols data cs = Except.ok res) :
    res = data.filter (fun p => decide (p.1 ∈ cs)) := by
  unfold subsetCols at h
  cases hext : extractColnums data cs with
  | error e => rw [hext] at h; cases h
  | ok nums =>
    rw [hext] at h
    cases h
    obtain ⟨h1, h2⟩ := extractColnums_ok data cs nums hext
    rw [uniqueBelow, selGo_spec]
    apply selGo_eq_filter
    intro j p hj
    rw [decide_eq_decide]
    constructor
    · intro hjn
      obtain ⟨nm, hnm, hcol⟩ := h2 j hjn
      obtain ⟨_, c, hc⟩ := colIndex_some data nm j hcol
      rw [hj] at hc
      cases hc
      exact hnm
    · intro hmem
      obtain ⟨i, hi, hcol⟩ := h1 p.1 hmem
      have hcj : colIndex data p.1 = some j := colIndex_of_get? data p.1 p.2 j hnd hj
      rw [hcj] at hcol
      cases hcol
      exact hi

/-- A missing requested column makes the subset read fail with an error
naming the first missing column. -/
theorem subsetCols_missing (tbl : HduData) (cs : List String)
    (hmiss : ∃ nm ∈ cs, findCol tbl nm = none) :
    ∃ nm, nm ∈ cs ∧ findCol tbl nm = none ∧
      subsetCols tbl cs = Except.error (ReadError.schemaError nm) := by
  have hmiss2 : ∃ nm ∈ cs, colIndex tbl nm = none := by
    obtain ⟨nm, hn, hnone⟩ := hmiss
    exact ⟨nm, hn, (findCol_none_iff tbl nm).mp hnone⟩
  obtain ⟨nm, hn, hnone, hext⟩ := extractColnums_missing tbl cs hmiss2
  refine ⟨nm, hn, (findCol_none_iff tbl nm).mpr hnone, ?_⟩
  unfold subsetCols
  rw [hext]

/-- What one byte-order normalization call returns: a column in native
order with as many rows as the input. -/
theorem convert_result_native (host : Host) (c c1 : Column) (b : Bool)
    (h : _convert_byteorder host c = Except.ok (c1, b)) :
    NativeOrder host c1.dtype ∧ c1.elems.length = c.elems.length := by
  rw [convert_byteorder_spec] at h
  split at h
  next hcond =>
    cases h
    exact ⟨Or.symm hcond, rfl⟩
  next hcond =>
    cases h
    exact ⟨Or.inl rfl, by simp⟩

theorem convertCols_ok (host : Host) (l : HduData) (res : List (String × Column))
    (h : convertCols host l = Except.ok res) :
    res.map Prod.fst = l.map Prod.fst ∧
      List.Forall₂ (fun p q : String × Column => p.1 = q.1 ∧
        NativeOrder host q.2.dtype ∧ q.2.elems.length = p.2.elems.length) l res := by
  induction l generalizing res with
  | nil =>
    cases h
    exact ⟨rfl, List.Forall₂.nil⟩
  | cons p rest ih =>
    obtain ⟨pn, pc⟩ := p
    rw [convertCols] at h
    cases hcv : _convert_byteorder host pc with
    | error e => rw [hcv] at h; cases h
    | ok pr =>
      obtain ⟨c1, b⟩ := pr
      rw [hcv] at h
      cases hrest : convertCols host rest with
      | error e => rw [hrest] at h; cases h
      | ok r =>
        rw [hrest] at h
        cases h
        obtain ⟨hnames, hfa⟩ := ih r hrest
        obtain ⟨hnat, hlen⟩ := convert_result_native host pc c1 b hcv
        exact ⟨by simp [hnames], List.Forall₂.cons ⟨rfl, hnat, hlen⟩ hfa⟩

/-- Correspondence between a column handed to the write path and the column
the read path returns for it: same name, same kind and item size, same row
count and the same values; moreover the very same column when the written
one was already in native byte order. -/
def RoundTripRel (host : Host) (p q : String × Column) : Prop :=
  p.1 = q.1 ∧
  q.2.dtype.kind = p.2.dtype.kind ∧
  q.2.dtype.itemsize = p.2.dtype.itemsize ∧
  q.2.elems.length = p.2.elems.length ∧
  colValues q.2 = colValues p.2 ∧
  (NativeOrder host p.2.dtype → q.2 = p.2)

/-- The byte-order normalization of the columns read from a written table
never fails, and relates every column read back to the column written. -/
theorem convertCols_map_store (host : Host) (l : HduData)
    (hk : ∀ p ∈ l, (p : String × Column).2.dtype.kind ≠ Kind.complex) :
    ∃ res, convertCols host (l.map (fun p => (p.1, storeColumn p.2))) = Except.ok res ∧
      List.Forall₂ (RoundTripRel host) l res := by
  induction l with
  | nil => exact ⟨[], rfl, List.Forall₂.nil⟩
  | cons p rest ih =>
    obtain ⟨b, c1, hc, h1, h2, h3, h4, h5⟩ :=
      convert_storeColumn host p.2 (hk p (List.mem_cons_self _ _))
    obtain ⟨res, hres, hfa⟩ := ih (fun q hq => hk q (List.mem_cons_of_mem _ hq))
    have hrel : RoundTripRel host p (p.1, c1) := ⟨rfl, h1, h2, h3, h4, h5⟩
    refine ⟨(p.1, c1) :: res, ?_, List.Forall₂.cons hrel hfa⟩
    rw [List.map_cons, convertCols, hc, hres]
    rfl

theorem forall2_fst {α β γ : Type} {f : α → γ} {g : β → γ}
    {R : α → β → Prop} (hR : ∀ p q, R p q → f p = g q)
    {l1 : List α} {l2 : List β} (h : List.Forall₂ R l1 l2) :
    l2.map g = l1.map f := by
  induction h with
  | nil => rfl
  | cons hpq _ ih => simp [hR _ _ hpq, ih]

theorem forall2_right_mem {α β : Type} {R : α → β → Prop} {P : β → Prop}
    (hR : ∀ p q, R p q → P q) {l1 : List α} {l2 : List β}
    (h : List.Forall₂ R l1 l2) : ∀ q ∈ l2, P q := by
  induction h with
  | nil => exact fun q hq => absurd hq (List.not_mem_nil q)
  | cons hpq _ ih =>
    intro q hq
    rcases List.mem_cons.mp hq with h1 | h1
    · subst h1; exact hR _ _ hpq
    · exact ih q h1

/-!
Lemmas about the write path.
-/

/-- The loop on lines 81-82 only reads the data frame: the data-frame
component of the state is whatever it was when the loop started. -/
theorem writeLoop_df (s : WriteState) (names : List String) :
    (writeLoop s names).df = s.df := by
  induction names generalizing s with
  | nil => rfl
  | cons c rest ih => exact ih _

theorem writeLoop_array (df : Table) (arr : HduData) (names : List String)
    (hnd : names.Nodup) :
    (writeLoop ⟨df, arr⟩ names).array =
      arr.map (fun p =>
        if p.1 ∈ names then (p.1, { p.2 with elems := dfElems df p.1 }) else p) := by
  induction names generalizing arr with
  | nil =>
    simp [writeLoop]
  | cons c rest ih =>
    have hc : c ∉ rest := (List.nodup_cons.mp hnd).1
    have hrest : rest.Nodup := (List.nodup_cons.mp hnd).2
    show (writeLoop ⟨df, setColumn arr c (dfElems df c)⟩ rest).array = _
    rw [ih _ hrest]
    unfold setColumn
    rw [List.map_map]
    apply List.map_congr_left
    intro p _
    by_cases h1 : p.1 = c
    · simp [Function.comp_apply, h1, hc]
    · simp [Function.comp_apply, h1]

/-- After lines 79-82 the record array holds exactly the data frame's
columns: same names, same dtypes, same data, in column order. -/
theorem to_fits_run_array (df : Table) (hnd : df.names.Nodup) :
    (to_fits_run df).array = df.cols := by
  unfold to_fits_run
  rw [writeLoop_array df _ _ hnd]
  unfold np_empty Table.schema
  rw [List.map_map, List.map_map]
  refine (List.map_congr_left ?_).trans (List.map_id df.cols)
  intro p hp
  have hmem : p.1 ∈ df.names := List.mem_map.mpr ⟨p, hp, rfl⟩
  have hfind : dfElems df p.1 = p.2.elems := by
    unfold dfElems
    rw [findCol_self df.cols p.1 p.2 hnd (by simpa using hp)]
  simp [Function.comp_apply, hmem, hfind]

/-- Under unique column names, the file written by `to_fits` is an empty
primary HDU followed by one binary table holding the data frame's columns
in order, each serialized by the codec. -/
theorem to_fits_eq (df : Table) (hnd : df.names.Nodup) :
    to_fits df =
      [HDU.image, HDU.table (df.cols.map (fun p => (p.1, storeColumn p.2)))] := by
  unfold to_fits
  rw [to_fits_run_array df hnd]

theorem forall2_rowCount {host : Host} {l1 l2 : List (String × Column)}
    (h : List.Forall₂ (RoundTripRel host) l1 l2) :
    Table.rowCount ⟨l2⟩ = Table.rowCount ⟨l1⟩ := by
  cases h with
  | nil => rfl
  | cons hpq _ => exact hpq.2.2.2.1

theorem forall2_native_eq {host : Host} {l1 l2 : List (String × Column)}
    (h : List.Forall₂ (RoundTripRel host) l1 l2)
    (hn : ∀ p ∈ l1, NativeOrder host (p : String × Column).2.dtype) :
    l2 = l1 := by
  induction h with
  | nil => rfl
  | cons hpq htl ih =>
    rename_i p q l1' l2'
    have hq : q = p := by
      have h2 : q.2 = p.2 := hpq.2.2.2.2.2 (hn p (List.mem_cons_self _ _))
      have h1 : q.1 = p.1 := hpq.1.symm
      cases p
      cases q
      simp_all
    rw [hq, ih (fun r hr => hn r (List.mem_cons_of_mem _ hr))]

/-- Master round-trip lemma: writing a table of non-complex columns with
unique names to a fresh file and reading extension 1 back succeeds and
returns a table whose columns correspond one-to-one, in order, to the
written ones; an already-native table is returned unchanged. -/
theorem roundtrip_master (host : Host) (df : Table) (hnd : df.names.Nodup)
    (hk : ∀ p ∈ df.cols, (p : String × Column).2.dtype.kind ≠ Kind.complex) :
    ∃ df1 : Table, read_fits host (to_fits df) none 1 = Except.ok df1 ∧
      df1.names = df.names ∧ df1.rowCount = df.rowCount ∧
      List.Forall₂ (RoundTripRel host) df.cols df1.cols ∧
      ((∀ p ∈ df.cols, NativeOrder host p.2.dtype) → df1 = df) := by
  obtain ⟨res, hres, hfa⟩ := convertCols_map_store host df.cols hk
  refine ⟨⟨res⟩, ?_, ?_, ?_, hfa, ?_⟩
  · rw [to_fits_eq df hnd]
    show (match convertCols host (df.cols.map fun p => (p.1, storeColumn p.2)) with
      | Except.error e => Except.error (ReadError.convert e)
      | Except.ok cs => Except.ok (⟨cs⟩ : Table)) = Except.ok (⟨res⟩ : Table)
    rw [hres]
  · exact forall2_fst (fun p q hpq => hpq.1) hfa
  · exact forall2_rowCount hfa
  · intro hn
    exact congrArg Table.mk (forall2_native_eq hfa hn)

/-!
Claim theorems.
-/

/-- C2: for every column buffer with a multi-byte numeric element type and a
declared byte order, the byte-order normalizer returns a buffer that is
value-for-value identical to the input, encoded in the host's native byte
order, with the element kind and byte width unchanged. -/
theorem convert_byteorder_value_preserving (host : Host) (c : Column)
    (hkind : c.dtype.kind = Kind.int ∨ c.dtype.kind = Kind.uint ∨
      c.dtype.kind = Kind.float)
    (horder : c.dtype.order = ByteOrder.little ∨ c.dtype.order = ByteOrder.big) :
    ∃ b c1, _convert_byteorder host c = Except.ok (c1, b) ∧
      c1.dtype.kind = c.dtype.kind ∧ c1.dtype.itemsize = c.dtype.itemsize ∧
      c1.dtype.order = host.toByteOrder ∧ colValues c1 = colValues c := by
  have hk : c.dtype.kind ≠ Kind.complex := by
    rcases hkind with h | h | h <;> rw [h] <;> simp
  obtain ⟨⟨o, k, n⟩, e⟩ := c
  have hsw : ∀ l : List Nat, swapElem ⟨o, k, n⟩ l = l.reverse :=
    swapElem_eq_reverse _ hk
  cases host <;> rcases horder with ho | ho <;> cases ho
  -- little host, already little: returned unchanged
  · refine ⟨true, ⟨⟨ByteOrder.little, k, n⟩, e⟩, ?_, rfl, rfl, rfl, rfl⟩
    simp [convert_byteorder_spec, Host.toByteOrder]
  -- little host, big order: byte-swapped, values unchanged
  · refine ⟨false, ⟨⟨ByteOrder.little, k, n⟩,
      e.map (swapElem ⟨ByteOrder.big, k, n⟩)⟩, ?_, rfl, rfl, rfl, ?_⟩
    · simp [convert_byteorder_spec, Host.toByteOrder]
    · have hsw2 : ∀ l : List Nat, swapElem ⟨ByteOrder.big, k, n⟩ l = l.reverse :=
        swapElem_eq_reverse _ hk
      simp [colValues, List.map_map, Function.comp_def, hsw2, elemValue]
  -- big host, little order: byte-swapped, values unchanged
  · refine ⟨false, ⟨⟨ByteOrder.big, k, n⟩,
      e.map (swapElem ⟨ByteOrder.little, k, n⟩)⟩, ?_, rfl, rfl, rfl, ?_⟩
    · simp [convert_byteorder_spec, Host.toByteOrder]
    · have hsw2 : ∀ l : List Nat, swapElem ⟨ByteOrder.little, k, n⟩ l = l.reverse :=
        swapElem_eq_reverse _ hk
      simp [colValues, List.map_map, Function.comp_def, hsw2, elemValue]
  -- big host, already big: returned unchanged
  · refine ⟨true, ⟨⟨ByteOrder.big, k, n⟩, e⟩, ?_, rfl, rfl, rfl, rfl⟩
    simp [convert_byteorder_spec, Host.toByteOrder]

/-- The spec's synthetic example: a big-endian 4-byte integer column holding
the bytes 00 00 00 01, i.e. the value 1 (and not 16777216). -/
def bigEndianOne : Column := ⟨⟨ByteOrder.big, Kind.int, 4⟩, [[0, 0, 0, 1]]⟩

theorem convert_byteorder_value_preserving_witness :
    colValues bigEndianOne = [1] ∧
    (∃ b c1, _convert_byteorder Host.little bigEndianOne = Except.ok (c1, b) ∧
      c1.dtype.kind = bigEndianOne.dtype.kind ∧
      c1.dtype.itemsize = bigEndianOne.dtype.itemsize ∧
      c1.dtype.order = Host.little.toByteOrder ∧
      colValues c1 = colValues bigEndianOne) :=
  ⟨by decide, convert_byteorder_value_preserving Host.little bigEndianOne
    (Or.inl rfl) (Or.inr rfl)⟩

/-- C4: when the declared byte order already matches the host's native order,
or the element type is one where byte order is not applicable (booleans,
single-byte integers, raw bytes), the normalizer returns the input buffer
itself: value-identical, same backing storage, no copy. -/
theorem convert_byteorder_native_noop (host : Host) (c : Column)
    (h : c.dtype.order = host.toByteOrder ∨ c.dtype.order = ByteOrder.notApplicable) :
    _convert_byteorder host c = Except.ok (c, true) := by
  rw [convert_byteorder_spec, if_pos (Or.symm h)]

/-- A boolean column (numpy b1: single byte, order character not
applicable). -/
def boolCol : Column := ⟨⟨ByteOrder.notApplicable, Kind.bool, 1⟩, [[1], [0]]⟩

/-- A 4-byte integer column already in little-endian order. -/
def nativeIntCol : Column := ⟨⟨ByteOrder.little, Kind.int, 4⟩, [[7, 0, 0, 0]]⟩

theorem convert_byteorder_native_noop_witness :
    _convert_byteorder Host.little boolCol = Except.ok (boolCol, true) ∧
    _convert_byteorder Host.little nativeIntCol = Except.ok (nativeIntCol, true) :=
  ⟨convert_byteorder_native_noop Host.little boolCol (Or.inr rfl),
   convert_byteorder_native_noop Host.little nativeIntCol (Or.inl rfl)⟩

/-- A big-endian complex128 column: a numpy dtype that claims a byte order
with an item size of 16 bytes, a width other than 2, 4 or 8. -/
def complexBigCol : Column :=
  ⟨⟨ByteOrder.big, Kind.complex, 16⟩,
   [[0, 0, 0, 0, 0, 0, 0, 1, 0, 0, 0, 0, 0, 0, 0, 2]]⟩

/-- C5 counterexample: on a column whose element type claims a byte order
but is 16 bytes wide, the normalizer does not signal a TypeMismatch error;
it returns a successfully normalized buffer.  The code has no width
check: the rebuilt dtype always has the same kind and item size, so the
equivalent-cast always succeeds. -/
theorem convert_width16_not_error :
    _convert_byteorder Host.little complexBigCol ≠
      Except.error ConvertError.typeMismatch ∧
    _convert_byteorder Host.little complexBigCol =
      Except.ok (⟨⟨ByteOrder.little, Kind.complex, 16⟩,
        [[1, 0, 0, 0, 0, 0, 0, 0, 2, 0, 0, 0, 0, 0, 0, 0]]⟩, false) := by
  have h1 : _convert_byteorder Host.little complexBigCol =
      Except.ok (⟨⟨ByteOrder.little, Kind.complex, 16⟩,
        [[1, 0, 0, 0, 0, 0, 0, 0, 2, 0, 0, 0, 0, 0, 0, 0]]⟩, false) := rfl
  refine ⟨?_, h1⟩
  rw [h1]
  intro h
  cases h

/-- C5 amended: for every column buffer whose element type claims a byte
order but whose element byte width is not 2, 4 or 8, the byte-order
normalizer does not signal a TypeMismatch error: it succeeds and returns a
normalized buffer (the code performs no width validation). -/
theorem convert_any_width_ok (host : Host) (c : Column)
    (horder : c.dtype.order ≠ ByteOrder.notApplicable)
    (hwidth : c.dtype.itemsize ∉ [2, 4, 8]) :
    ∃ r, _convert_byteorder host c = Except.ok r := by
  rw [convert_byteorder_spec]
  split
  · exact ⟨_, rfl⟩
  · exact ⟨_, rfl⟩

theorem convert_any_width_ok_witness :
    complexBigCol.dtype.order ≠ ByteOrder.notApplicable ∧
    complexBigCol.dtype.itemsize ∉ [2, 4, 8] ∧
    (∃ r, _convert_byteorder Host.little complexBigCol = Except.ok r) :=
  ⟨by decide, by decide,
   convert_any_width_ok Host.little complexBigCol (by decide) (by decide)⟩

/-- C10: the write operation only ever reads the caller's table (lines
79-82 read `df.dtypes`, `len(df)`, `df.columns` and `df[column]`; all
writes go to the freshly allocated record array), so after the write
pipeline the caller's data frame is unchanged: same column names, column
order, element types, row count and cell values. -/
theorem to_fits_preserves_input (df : Table) : (to_fits_run df).df = df :=
  writeLoop_df ⟨df, np_empty df.rowCount df.schema⟩ df.names

/-- The schema of the binary table in `leakFile`: one column named a. -/
def leakTbl : HduData := [("a", ⟨⟨ByteOrder.big, Kind.int, 4⟩, [[0, 0, 0, 1]]⟩)]

/-- A FITS file with an empty primary HDU and one binary table. -/
def leakFile : FitsFile := [HDU.image, HDU.table leakTbl]

/-- C3: evidence that the claim fails on the code.  In the fitsio branch the
statements on lines 47-52 are not wrapped in try/finally or a with-block:
when the requested column is absent, the error raised on line 51 propagates
before `fits.close()` on line 52 runs, so the handle is opened but not
closed before the call returns.  Only the success path closes the
handle. -/
theorem read_fits_error_skips_close :
    read_fits_events leakFile (some ["nonexistent"]) 1 = [FitsEvent.opened] ∧
    FitsEvent.closed ∉ read_fits_events leakFile (some ["nonexistent"]) 1 ∧
    read_fits Host.little leakFile (some ["nonexistent"]) 1 =
      Except.error (ReadError.schemaError "nonexistent") ∧
    read_fits_events leakFile none 1 = [FitsEvent.opened, FitsEvent.closed] := by
  refine ⟨rfl, ?_, rfl, rfl⟩
  intro h
  have h1 : read_fits_events leakFile (some ["nonexistent"]) 1 =
      [FitsEvent.opened] := rfl
  rw [h1] at h
  rcases List.mem_singleton.mp h with h2
  cases h2

/-- C6: a read call whose column list contains a name absent from the
extension's schema signals a SchemaError naming a missing column, and no
Table is produced. -/
theorem read_fits_missing_column (host : Host) (file : FitsFile) (hdu : Nat)
    (tbl : HduData) (cs : List String)
    (hfile : file.get? hdu = some (HDU.table tbl))
    (hmiss : ∃ nm ∈ cs, findCol tbl nm = none) :
    ∃ nm, nm ∈ cs ∧ findCol tbl nm = none ∧
      read_fits host file (some cs) hdu =
        Except.error (ReadError.schemaError nm) := by
  obtain ⟨nm, hmem, hnone, hsub⟩ := subsetCols_missing tbl cs hmiss
  refine ⟨nm, hmem, hnone, ?_⟩
  unfold read_fits
  rw [hfile]
  show (match subsetCols tbl cs with
    | Except.error e => Except.error e
    | Except.ok data =>
      match convertCols host data with
      | Except.error e => Except.error (ReadError.convert e)
      | Except.ok cs2 => Except.ok (⟨cs2⟩ : Table)) =
    Except.error (ReadError.schemaError nm)
  rw [hsub]

theorem read_fits_missing_column_witness :
    ∃ nm, nm ∈ ["nonexistent"] ∧ findCol leakTbl nm = none ∧
      read_fits Host.little leakFile (some ["nonexistent"]) 1 =
        Except.error (ReadError.schemaError nm) :=
  read_fits_missing_column Host.little leakFile 1 leakTbl ["nonexistent"] rfl
    ⟨"nonexistent", by decide, rfl⟩

/-- Row count of a binary-table extension (in a well-formed FITS table all
columns have this length). -/
def hduRows (tbl : HduData) : Nat :=
  match tbl with
  | [] => 0
  | p :: _ => p.2.elems.length

/-- Reduction of `read_fits` once the extension lookup has succeeded on a
binary table. -/
theorem read_fits_table (host : Host) (file : FitsFile)
    (cols : Option (List String)) (hdu : Nat) (tbl : HduData)
    (hfile : file.get? hdu = some (HDU.table tbl)) :
    read_fits host file cols hdu =
      match (match cols with
        | none => Except.ok tbl
        | some cs => subsetCols tbl cs) with
      | Except.error e => Except.error e
      | Except.ok data =>
        match convertCols host data with
        | Except.error e => Except.error (ReadError.convert e)
        | Except.ok cs2 => Except.ok (⟨cs2⟩ : Table) := by
  unfold read_fits
  rw [hfile]

/-- A successful read with an extension index that resolves to something
other than a binary table is impossible. -/
theorem read_fits_ok_table (host : Host) (file : FitsFile)
    (cols : Option (List String)) (hdu : Nat) (t1 : Table)
    (hread : read_fits host file cols hdu = Except.ok t1) :
    ∃ tbl, file.get? hdu = some (HDU.table tbl) := by
  unfold read_fits at hread
  cases hget : file.get? hdu with
  | none => rw [hget] at hread; cases hread
  | some h0 =>
    cases h0 with
    | image => rw [hget] at hread; cases hread
    | table tbl => exact ⟨tbl, rfl⟩

/-- C7: after a successful read, every column of the returned table is in
native byte order, the table's row count equals the extension's row count,
and every requested column appears in the result (all schema columns, in
order, when no list was given): no column is silently dropped. -/
theorem read_fits_postconditions (host : Host) (file : FitsFile)
    (cols : Option (List String)) (hdu : Nat) (tbl : HduData) (t1 : Table)
    (hfile : file.get? hdu = some (HDU.table tbl))
    (hlen : ∀ p ∈ tbl, (p : String × Column).2.elems.length = hduRows tbl)
    (hcols : cols ≠ some [])
    (hread : read_fits host file cols hdu = Except.ok t1) :
    (match cols with
      | none => t1.names = tbl.map Prod.fst
      | some cs => ∀ nm ∈ cs, nm ∈ t1.names) ∧
    (∀ p ∈ t1.cols, NativeOrder host (p : String × Column).2.dtype) ∧
    t1.rowCount = hduRows tbl := by
  rw [read_fits_table host file cols hdu tbl hfile] at hread
  cases cols with
  | none =>
    have hread' : (match convertCols host tbl with
        | Except.error e => Except.error (ReadError.convert e)
        | Except.ok cs2 => Except.ok (⟨cs2⟩ : Table)) = Except.ok t1 := hread
    cases hconv : convertCols host tbl with
    | error e => rw [hconv] at hread'; cases hread'
    | ok res =>
      rw [hconv] at hread'
      cases hread'
      obtain ⟨hnames, hfa⟩ := convertCols_ok host tbl res hconv
      refine ⟨hnames, forall2_right_mem (fun p q h => h.2.1) hfa, ?_⟩
      cases hfa with
      | nil => rfl
      | cons hpq htl => exact hpq.2.2
  | some cs =>
    have hread' : (match subsetCols tbl cs with
        | Except.error e => Except.error e
        | Except.ok data =>
          match convertCols host data with
          | Except.error e => Except.error (ReadError.convert e)
          | Except.ok cs2 => Except.ok (⟨cs2⟩ : Table)) = Except.ok t1 := hread
    cases hsub : subsetCols tbl cs with
    | error e => rw [hsub] at hread'; cases hread'
    | ok data =>
      rw [hsub] at hread'
      have hread2 : (match convertCols host data with
          | Except.error e => Except.error (ReadError.convert e)
          | Except.ok cs2 => Except.ok (⟨cs2⟩ : Table)) = Except.ok t1 := hread'
      cases hconv : convertCols host data with
      | error e => rw [hconv] at hread2; cases hread2
      | ok res =>
        rw [hconv] at hread2
        cases hread2
        obtain ⟨hsn, hsm⟩ := subsetCols_mem_names tbl cs data hsub
        obtain ⟨hcn, hfa⟩ := convertCols_ok host data res hconv
        refine ⟨?_, forall2_right_mem (fun p q h => h.2.1) hfa, ?_⟩
        · intro nm hnm
          rw [show Table.names ⟨res⟩ = res.map Prod.fst from rfl, hcn]
          exact hsn nm hnm
        · cases data with
          | nil =>
            cases hcse : cs with
            | nil => exact absurd (congrArg some hcse) hcols
            | cons nm0 cs' =>
              have hmem : nm0 ∈ cs := by
                rw [hcse]
                exact List.mem_cons_self _ _
              have hfalse : nm0 ∈ ([] : HduData).map Prod.fst := hsn nm0 hmem
              cases hfalse
          | cons d0 data' =>
            cases hfa with
            | cons hpq htl =>
              have hd0 : d0 ∈ tbl := hsm d0 (List.mem_cons_self _ _)
              have hlen0 : d0.2.elems.length = hduRows tbl := hlen d0 hd0
              exact hpq.2.2.trans hlen0

/-- The schema of the extension used as the C7 witness: one big-endian
2-byte integer column with two rows. -/
def wtbl : HduData := [("a", ⟨⟨ByteOrder.big, Kind.int, 2⟩, [[0, 1], [0, 2]]⟩)]

def wfile : FitsFile := [HDU.image, HDU.table wtbl]

/-- The table `read_fits` returns for `wfile` on a little-endian host. -/
def wresult : Table := ⟨[("a", ⟨⟨ByteOrder.little, Kind.int, 2⟩, [[1, 0], [2, 0]]⟩)]⟩

theorem read_fits_postconditions_witness :
    wresult.names = wtbl.map Prod.fst ∧
    (∀ p ∈ wresult.cols, NativeOrder Host.little (p : String × Column).2.dtype) ∧
    wresult.rowCount = hduRows wtbl :=
  read_fits_postconditions Host.little wfile none 1 wtbl wresult rfl
    (by decide) (by simp) rfl

/-- A two-column extension whose schema order is a then b, used to show
that a subset read comes back in file order, not request order. -/
def orderTbl : HduData :=
  [("a", ⟨⟨ByteOrder.notApplicable, Kind.bool, 1⟩, [[1]]⟩),
   ("b", ⟨⟨ByteOrder.notApplicable, Kind.int, 1⟩, [[5]]⟩)]

def orderFile : FitsFile := [HDU.image, HDU.table orderTbl]

/-- C8 counterexample: requesting columns b then a from an extension whose
schema order is a then b returns the columns as a, b — file order, not the
request order b, a.  fitsio reduces the request to unique, sorted column
numbers (numpy.unique inside `_extract_colnums`), so request order is not
preserved. -/
theorem read_fits_request_order_false :
    read_fits Host.little orderFile (some ["b", "a"]) 1 =
      Except.ok (⟨[("a", ⟨⟨ByteOrder.notApplicable, Kind.bool, 1⟩, [[1]]⟩),
        ("b", ⟨⟨ByteOrder.notApplicable, Kind.int, 1⟩, [[5]]⟩)]⟩ : Table) ∧
    (Table.mk [("a", ⟨⟨ByteOrder.notApplicable, Kind.bool, 1⟩, [[1]]⟩),
      ("b", ⟨⟨ByteOrder.notApplicable, Kind.int, 1⟩, [[5]]⟩)]).names ≠
      ["b", "a"] := by
  exact ⟨rfl, by decide⟩

/-- C8 amended: with an explicit column list, the returned table contains
exactly the distinct requested columns, deduplicated and in the source
schema's field order (the codec reduces the request to unique, sorted
column numbers), regardless of request order; with no list, all schema
columns in the extension's declared field order. -/
theorem read_fits_subset_schema_order (host : Host) (file : FitsFile)
    (hdu : Nat) (tbl : HduData)
    (hnd : (tbl.map Prod.fst).Nodup)
    (hfile : file.get? hdu = some (HDU.table tbl)) :
    (∀ cs t1, read_fits host file (some cs) hdu = Except.ok t1 →
      t1.names = (tbl.map Prod.fst).filter (fun nm => decide (nm ∈ cs))) ∧
    (∀ t1, read_fits host file none hdu = Except.ok t1 →
      t1.names = tbl.map Prod.fst) := by
  constructor
  · intro cs t1 hread
    rw [read_fits_table host file (some cs) hdu tbl hfile] at hread
    have hread' : (match subsetCols tbl cs with
        | Except.error e => Except.error e
        | Except.ok data =>
          match convertCols host data with
          | Except.error e => Except.error (ReadError.convert e)
          | Except.ok cs2 => Except.ok (⟨cs2⟩ : Table)) = Except.ok t1 := hread
    cases hsub : subsetCols tbl cs with
    | error e => rw [hsub] at hread'; cases hread'
    | ok data =>
      rw [hsub] at hread'
      have hread2 : (match convertCols host data with
          | Except.error e => Except.error (ReadError.convert e)
          | Except.ok cs2 => Except.ok (⟨cs2⟩ : Table)) = Except.ok t1 := hread'
      cases hconv : convertCols host data with
      | error e => rw [hconv] at hread2; cases hread2
      | ok res =>
        rw [hconv] at hread2
        cases hread2
        obtain ⟨hcn, _⟩ := convertCols_ok host data res hconv
        rw [show Table.names ⟨res⟩ = res.map Prod.fst from rfl, hcn,
          subsetCols_filter tbl cs data hnd hsub]
        show List.map Prod.fst
            (tbl.filter ((fun nm => decide (nm ∈ cs)) ∘ Prod.fst)) =
          (tbl.map Prod.fst).filter (fun nm => decide (nm ∈ cs))
        exact (List.filter_map Prod.fst tbl).symm
  · intro t1 hread
    rw [read_fits_table host file none hdu tbl hfile] at hread
    have hread' : (match convertCols host tbl with
        | Except.error e => Except.error (ReadError.convert e)
        | Except.ok cs2 => Except.ok (⟨cs2⟩ : Table)) = Except.ok t1 := hread
    cases hconv : convertCols host tbl with
    | error e => rw [hconv] at hread'; cases hread'
    | ok res =>
      rw [hconv] at hread'
      cases hread'
      obtain ⟨hcn, _⟩ := convertCols_ok host tbl res hconv
      exact hcn

theorem read_fits_subset_schema_order_witness :
    (Table.mk [("a", ⟨⟨ByteOrder.notApplicable, Kind.bool, 1⟩, [[1]]⟩),
      ("b", ⟨⟨ByteOrder.notApplicable, Kind.int, 1⟩, [[5]]⟩)]).names =
      (orderTbl.map Prod.fst).filter
        (fun nm => decide (nm ∈ (["b", "a"] : List String))) :=
  (read_fits_subset_schema_order Host.little orderFile 1 orderTbl
    (by decide) rfl).1 ["b", "a"]
    ⟨[("a", ⟨⟨ByteOrder.notApplicable, Kind.bool, 1⟩, [[1]]⟩),
      ("b", ⟨⟨ByteOrder.notApplicable, Kind.int, 1⟩, [[5]]⟩)]⟩ rfl

/-- C1: writing a table whose columns all have supported primitive element
types to a fresh path and reading it back returns a table with the same
column names in the same order, the same row count, and column-for-column
the same element kind, byte width and values; a table already in native
byte order is returned equal to the input. -/
theorem write_read_roundtrip (host : Host) (df : Table)
    (hnd : df.names.Nodup)
    (hsupp : ∀ p ∈ df.cols, SupportedDType (p : String × Column).2.dtype) :
    ∃ df1 : Table, read_fits host (to_fits df) none 1 = Except.ok df1 ∧
      df1.names = df.names ∧ df1.rowCount = df.rowCount ∧
      List.Forall₂ (RoundTripRel host) df.cols df1.cols ∧
      ((∀ p ∈ df.cols, NativeOrder host p.2.dtype) → df1 = df) :=
  roundtrip_master host df hnd (fun p hp => supported_not_complex (hsupp p hp))

/-- A small native-order table with one 4-byte integer column and one
boolean column, two rows. -/
def sampleTable : Table :=
  ⟨[("a", ⟨⟨ByteOrder.little, Kind.int, 4⟩, [[1, 0, 0, 0], [2, 0, 0, 0]]⟩),
    ("b", ⟨⟨ByteOrder.notApplicable, Kind.bool, 1⟩, [[1], [0]]⟩)]⟩

theorem write_read_roundtrip_witness :
    sampleTable.names.Nodup ∧
    (∀ p ∈ sampleTable.cols, SupportedDType (p : String × Column).2.dtype) ∧
    ∃ df1 : Table,
      read_fits Host.little (to_fits sampleTable) none 1 = Except.ok df1 ∧
      df1.names = sampleTable.names ∧ df1.rowCount = sampleTable.rowCount ∧
      List.Forall₂ (RoundTripRel Host.little) sampleTable.cols df1.cols ∧
      ((∀ p ∈ sampleTable.cols, NativeOrder Host.little p.2.dtype) →
        df1 = sampleTable) :=
  ⟨by decide, by decide,
   write_read_roundtrip Host.little sampleTable (by decide) (by decide)⟩

theorem storeColumn_length (c : Column) :
    (storeColumn c).elems.length = c.elems.length := by
  unfold storeColumn
  split
  · rfl
  · split
    · simp
    · rfl

theorem rowCount_zero_of_cols (df : Table)
    (hzero : ∀ p ∈ df.cols, (p : String × Column).2.elems.length = 0) :
    df.rowCount = 0 := by
  obtain ⟨cols⟩ := df
  cases cols with
  | nil => rfl
  | cons p rest => exact hzero p (List.mem_cons_self _ _)

/-- C9: writing a zero-row table with N columns of supported types succeeds
and produces an empty extension, and reading it back yields a table with
the same N column names and element types and zero rows. -/
theorem empty_table_roundtrip (host : Host) (df : Table)
    (hnd : df.names.Nodup)
    (hsupp : ∀ p ∈ df.cols, SupportedDType (p : String × Column).2.dtype)
    (hzero : ∀ p ∈ df.cols, (p : String × Column).2.elems.length = 0) :
    (∃ stored : HduData, to_fits df = [HDU.image, HDU.table stored] ∧
      stored.map Prod.fst = df.names ∧
      ∀ p ∈ stored, (p : String × Column).2.elems.length = 0) ∧
    ∃ df1 : Table, read_fits host (to_fits df) none 1 = Except.ok df1 ∧
      df1.names = df.names ∧ df1.rowCount = 0 ∧
      List.Forall₂ (fun p q : String × Column => p.1 = q.1 ∧
        q.2.dtype.kind = p.2.dtype.kind ∧
        q.2.dtype.itemsize = p.2.dtype.itemsize) df.cols df1.cols := by
  have hk : ∀ p ∈ df.cols, (p : String × Column).2.dtype.kind ≠ Kind.complex :=
    fun p hp => supported_not_complex (hsupp p hp)
  constructor
  · refine ⟨df.cols.map (fun p => (p.1, storeColumn p.2)), to_fits_eq df hnd,
      ?_, ?_⟩
    · rw [List.map_map]
      exact List.map_congr_left (fun p _ => rfl)
    · intro p hp
      obtain ⟨q, hq, hqe⟩ := List.mem_map.mp hp
      rw [← hqe]
      exact (storeColumn_length q.2).trans (hzero q hq)
  · obtain ⟨df1, h1, h2, h3, hfa, _⟩ := roundtrip_master host df hnd hk
    refine ⟨df1, h1, h2, ?_, ?_⟩
    · rw [h3]
      exact rowCount_zero_of_cols df hzero
    · exact hfa.imp (fun p q hpq => ⟨hpq.1, hpq.2.1, hpq.2.2.1⟩)

/-- A zero-row table with two columns: a little-endian 8-byte float and a
5-byte fixed-width byte string. -/
def emptyTable : Table :=
  ⟨[("x", ⟨⟨ByteOrder.little, Kind.float, 8⟩, []⟩),
    ("y", ⟨⟨ByteOrder.notApplicable, Kind.bytes, 5⟩, []⟩)]⟩

theorem empty_table_roundtrip_witness :
    (∃ stored : HduData, to_fits emptyTable = [HDU.image, HDU.table stored] ∧
      stored.map Prod.fst = emptyTable.names ∧
      ∀ p ∈ stored, (p : String × Column).2.elems.length = 0) ∧
    ∃ df1 : Table,
      read_fits Host.big (to_fits emptyTable) none 1 = Except.ok df1 ∧
      df1.names = emptyTable.names ∧ df1.rowCount = 0 ∧
      List.Forall₂ (fun p q : String × Column => p.1 = q.1 ∧
        q.2.dtype.kind = p.2.dtype.kind ∧
        q.2.dtype.itemsize = p.2.dtype.itemsize) emptyTable.cols df1.cols :=
  empty_table_roundtrip Host.big emptyTable (by decide) (by decide) (by decide)

end AstroPandas
